import Mathlib

/-!
Verification of the Kwork Gmail checker (src/main.py) against its
natural-language specification.

Python strings are modelled as `List Char` (`Str`).  Python `datetime`
values are modelled as integer timestamps (seconds for message dates,
minutes for the persisted-state model, stated at each definition).
Regular expressions from the source are modelled as executable matching
functions whose search/backtracking semantics were derived from the
concrete patterns (all of them are deterministic after resolving the
greedy/lazy quantifiers, which is spelled out in comments below).
-/

/-- Python strings are modelled as lists of characters. -/
abbrev Str := List Char

/-- Coerce a Lean string literal into the model type. -/
def strOf (x : String) : Str := x.data

/-- Python `\s` / `str.strip` whitespace (the characters that can occur in
the inputs at hand: ASCII whitespace plus NEL and NBSP). -/
def isSpacePy (c : Char) : Bool :=
  c = ' ' || c = Char.ofNat 9 || c = Char.ofNat 10 || c = Char.ofNat 13 ||
  c = Char.ofNat 11 || c = Char.ofNat 12 || c = Char.ofNat 0x85 || c = Char.ofNat 0xa0

/-- Python `\d` restricted to ASCII digits (the only digits in the inputs). -/
def isDigit (c : Char) : Bool := decide ('0' ≤ c) && decide (c ≤ '9')

/-- ASCII Latin letter. -/
def isLatin (c : Char) : Bool :=
  (decide ('a' ≤ c) && decide (c ≤ 'z')) || (decide ('A' ≤ c) && decide (c ≤ 'Z'))

/-- Python `str.isalpha` restricted to Latin and basic Cyrillic letters
(the only letters occurring in the parsed notifications). -/
def isAlphaPy (c : Char) : Bool :=
  isLatin c ||
  (decide ('а' ≤ c) && decide (c ≤ 'я')) || (decide ('А' ≤ c) && decide (c ≤ 'Я')) ||
  c = 'ё' || c = 'Ё'

/-- Python `str.lower` on Latin and basic Cyrillic letters; other characters
are left unchanged (no other cased characters occur in the matched text). -/
def pyLower (c : Char) : Char :=
  if decide ('A' ≤ c) && decide (c ≤ 'Z') then Char.ofNat (c.toNat + 32)
  else if decide ('А' ≤ c) && decide (c ≤ 'Я') then Char.ofNat (c.toNat + 32)
  else if c = 'Ё' then 'ё'
  else c

/-- Python regex `\w` (word character) over the alphabet above. -/
def isWordChar (c : Char) : Bool := isAlphaPy c || isDigit c || c = '_'

/-- Python `str.lstrip()`. -/
def pyLstrip (l : Str) : Str := l.dropWhile isSpacePy

/-- Python `str.rstrip()`. -/
def pyRstrip (l : Str) : Str := (l.reverse.dropWhile isSpacePy).reverse

/-- Python `str.strip()`. -/
def pyStrip (l : Str) : Str := pyRstrip (pyLstrip l)

/-- Helper for `pySplit`: accumulates the current word in reverse. -/
def pySplitAux : Str → Str → List Str
  | [], cur => if cur.isEmpty then [] else [cur.reverse]
  | c :: rest, cur =>
    if isSpacePy c then
      if cur.isEmpty then pySplitAux rest [] else cur.reverse :: pySplitAux rest []
    else pySplitAux rest (c :: cur)

/-- Python `str.split()` (split on whitespace runs, dropping empties). -/
def pySplit (l : Str) : List Str := pySplitAux l []

/-- Line-break characters recognised by Python `str.splitlines`. -/
def isLineBreak (c : Char) : Bool :=
  c = Char.ofNat 10 || c = Char.ofNat 13 || c = Char.ofNat 11 || c = Char.ofNat 12 ||
  c = Char.ofNat 0x1c || c = Char.ofNat 0x1d || c = Char.ofNat 0x1e ||
  c = Char.ofNat 0x85 || c = Char.ofNat 0x2028 || c = Char.ofNat 0x2029

/-- Helper for `pySplitlines`: accumulates the current line in reverse;
a CR immediately followed by LF counts as a single break. -/
def pySplitlinesAux : Str → Str → List Str
  | [], cur => if cur.isEmpty then [] else [cur.reverse]
  | [c], cur =>
    if isLineBreak c then [cur.reverse] else [(c :: cur).reverse]
  | c :: c2 :: rest, cur =>
    if c = Char.ofNat 13 then
      if c2 = Char.ofNat 10 then cur.reverse :: pySplitlinesAux rest []
      else cur.reverse :: pySplitlinesAux (c2 :: rest) []
    else if isLineBreak c then cur.reverse :: pySplitlinesAux (c2 :: rest) []
    else pySplitlinesAux (c2 :: rest) (c :: cur)

/-- Python `str.splitlines()`. -/
def pySplitlines (l : Str) : List Str := pySplitlinesAux l []

/-- Decimal value of a digit string (`int` on an all-digit string). -/
def digitsToNat (l : Str) : Nat := l.foldl (fun a c => a * 10 + (c.toNat - 48)) 0

/-- Python `int(s)` on the strings reachable here ([0-9] and whitespace):
strips surrounding whitespace, then requires a nonempty all-digit string;
anything else raises `ValueError`, modelled as `none`. -/
def pyInt (l : Str) : Option Nat :=
  let t := pyStrip l
  if t.isEmpty then none
  else if t.all isDigit then some (digitsToNat t) else none

/-- Python `s.replace(" ", "")`: remove ASCII spaces only. -/
def pyRemoveSpaces (l : Str) : Str := l.filter (fun c => c != ' ')

/-- Case-insensitive literal match: consume `pat` (given lowercase) from the
front of `l`, returning the rest, or `none`. Models an `re.IGNORECASE`
literal. -/
def dropLitCI : Str → Str → Option Str
  | [], l => some l
  | _ :: _, [] => none
  | p :: ps, c :: cs => if pyLower c = p then dropLitCI ps cs else none

/-- Model of regex `\s+`: require at least one whitespace character and
consume the maximal run. -/
def reqWs (l : Str) : Option Str :=
  if (l.takeWhile isSpacePy).isEmpty then none else some (l.dropWhile isSpacePy)

/-- Exact literal test at the start of a string (helper for `hasSub`). -/
def litAt : Str → Str → Bool
  | [], _ => true
  | _ :: _, [] => false
  | p :: ps, c :: cs => c = p && litAt ps cs

/-- Python `pat in l` (substring containment). -/
def hasSub (pat : Str) : Str → Bool
  | [] => pat.isEmpty
  | c :: rest => litAt pat (c :: rest) || hasSub pat rest

/-- Model of the `re.search` position scan: try the matcher at every position
(leftmost match wins). -/
def searchSuffixes {α : Type} (f : Str → Option α) : Str → Option α
  | [] => f []
  | c :: rest =>
    match f (c :: rest) with
    | some r => some r
    | none => searchSuffixes f rest

/-- Model of `re.search(r"\+(\d+)\s+новых\s+подходящих\s+проект", text, re.IGNORECASE)`
tried at one position.  After the literal `+` the quantifiers are
deterministic: `\d+` and `\s+` take maximal runs because the following
atoms cannot consume their characters. -/
def matchAvailAt (l : Str) : Option Nat :=
  match l with
  | [] => none
  | c :: rest =>
    if c = '+' then
      let ds := rest.takeWhile isDigit
      if ds.isEmpty then none
      else do
        let r2 ← reqWs (rest.dropWhile isDigit)
        let r3 ← dropLitCI (strOf ("новых")) r2
        let r4 ← reqWs r3
        let r5 ← dropLitCI (strOf ("подходящих")) r4
        let r6 ← reqWs r5
        let _ ← dropLitCI (strOf ("проект")) r6
        pure (digitsToNat ds)
    else none

/-- The `available` summary counter: leftmost match of the pattern above. -/
def findAvailable (text : Str) : Option Nat := searchSuffixes matchAvailAt text

/-- One position of the lazy `.*?` scan inside the `total` pattern: try
`размещено\s+([\d\s]+)\s+новых\s+проект` here, returning group 2.
Writing `R` for the maximal `[\d\s]` run after the literal, backtracking
resolves to: `R` must start with whitespace, have length at least 3 and
end with whitespace; `\s+` takes `min(ws-prefix-of-R, |R|-2)` characters
and group 2 is the rest of `R` minus its final character (checked against
CPython on all boundary shapes). -/
def totalTailAt (l : Str) : Option Str := do
  let r1 ← dropLitCI (strOf ("размещено")) l
  let run := r1.takeWhile (fun c => isDigit c || isSpacePy c)
  let r2 := r1.dropWhile (fun c => isDigit c || isSpacePy c)
  let p := (run.takeWhile isSpacePy).length
  if p = 0 then none
  else if run.length < 3 then none
  else
    match run.getLast? with
    | none => none
    | some c =>
      if isSpacePy c then do
        let g2 := (run.drop (min p (run.length - 2))).dropLast
        let r3 ← dropLitCI (strOf ("новых")) r2
        let r4 ← reqWs r3
        let _ ← dropLitCI (strOf ("проект")) r4
        pure g2
      else none

/-- Model of the `total` regex
`За последние\s+([0-9]+\s+\S+)\s+на бирже.*?размещено\s+([\d\s]+)\s+новых\s+проект`
(IGNORECASE | DOTALL) tried at one position; returns (group 1, group 2).
`[0-9]+`, the two `\s+` and `\S+` are deterministic maximal runs; the lazy
`.*?` is the leftmost position at which `totalTailAt` succeeds. -/
def matchTotalAt (l : Str) : Option (Str × Str) := do
  let r1 ← dropLitCI (strOf ("за последние")) l
  let r2 ← reqWs r1
  let ds := r2.takeWhile isDigit
  let r3 := r2.dropWhile isDigit
  if ds.isEmpty then none
  else
    let w2 := r3.takeWhile isSpacePy
    let r4 := r3.dropWhile isSpacePy
    if w2.isEmpty then none
    else
      let tk := r4.takeWhile (fun c => !isSpacePy c)
      let r5 := r4.dropWhile (fun c => !isSpacePy c)
      if tk.isEmpty then none
      else do
        let r6 ← reqWs r5
        let r7 ← dropLitCI (strOf ("на бирже")) r6
        let g2 ← searchSuffixes totalTailAt r7
        pure (ds ++ w2 ++ tk, g2)

/-- The `total`/`timeframe` summary: leftmost match, returning
(group 1 = timeframe, group 2 = raw count). -/
def findTotalRaw (text : Str) : Option (Str × Str) := searchSuffixes matchTotalAt text

/-- Tail of the price pattern after the leading digit: `[\d\s]*\s*(Р|₽)$`
with IGNORECASE, i.e. digit-or-space characters ending in `Р`, `р` or `₽`. -/
def priceTail : Str → Bool
  | [] => false
  | [m] => m = 'Р' || m = 'р' || m = '₽'
  | c :: c2 :: rest => (isDigit c || isSpacePy c) && priceTail (c2 :: rest)

/-- Model of `price_re.match(line)`: `^\d[\d\s]*\s*(Р|₽)$` with IGNORECASE (`re.match`
anchors at the start and `$` at the end, so this is a full match on the
newline-free lines handed to it). -/
def priceRe (l : Str) : Bool :=
  match l with
  | [] => false
  | c :: rest => isDigit c && priceTail rest

/-- The stored price string: `line.replace("Р", "₽").strip()`. -/
def priceStore (line : Str) : Str :=
  pyStrip (line.map (fun c => if c = 'Р' then '₽' else c))

/-- Helper for `containsWordProekt`: `prev` is the character before the
current position (`none` at the string start). -/
def containsWordProektAux : Option Char → Str → Bool
  | _, [] => false
  | prev, c :: rest =>
    ((match prev with
      | none => true
      | some p => !isWordChar p) && (dropLitCI (strOf ("проект")) (c :: rest)).isSome)
    || containsWordProektAux (some c) rest

/-- Model of `re.search` for the word-boundary pattern on `llow`: the word `проект` preceded by a word
boundary (applied to the lowercased line, so the literal comparison via
`dropLitCI` is exact). -/
def containsWordProekt (l : Str) : Bool := containsWordProektAux none l

/-- Model of the first buyer-token pattern (letters, digits and separators,
length at least 3) as a full-line check. -/
def buyerTok1 (t : Str) : Bool :=
  decide (3 ≤ t.length) &&
  t.all (fun c => isLatin c || isDigit c || c = '_' || c = '.' || c = '-')

/-- Model of the second buyer-token pattern (a Latin letter followed by at
least two letters, digits or separators) as a full-line check. -/
def buyerTok2 : Str → Bool
  | [] => false
  | c :: rest =>
    isLatin c && decide (2 ≤ rest.length) &&
    rest.all (fun c2 => isLatin c2 || isDigit c2 || c2 = '_' || c2 = '.' || c2 = '-')

/-- Python `str.isdigit()` (ASCII digits). -/
def isDigitStr (t : Str) : Bool := !t.isEmpty && t.all isDigit

/-- One extracted listing record (a `projects` entry of `parse_from_text`;
`url` is attached later by `parse_kwork_email`). -/
structure Project where
  title : Str
  category : Option Str
  buyer : Option Str
  hired : Option Str
  price : Str
  url : Option Str
  deriving DecidableEq

/-- The dict returned by `parse_from_text`. -/
structure ParseResult where
  available : Option Nat
  total : Option Nat
  timeframe : Option Str
  projects : List Project
  deriving DecidableEq

/-- The boilerplate-line filter at the top of the scan loop (`title` is the
current line, `low` its lowercasing). -/
def isBoiler (title low : Str) : Bool :=
  title == strOf ("Название") || title == strOf ("Покупатель") || title == strOf ("Цена") ||
  hasSub (strOf ("перейти на")) low ||
  hasSub (strOf ("ваши настройки")) low ||
  hasSub (strOf ("отписаться")) low ||
  hasSub (strOf ("новых подходящих")) low

/-- The category line `lines[i+1]` when the next line exists and contains `>`
(`cat_re.search`). -/
def categoryAt (lines : List Str) (i : Nat) : Option Str :=
  if decide (i + 1 < lines.length) && (lines.getD (i+1) []).contains ('>')
  then some (lines.getD (i+1) []) else none

/-- Result of the forward scan for one candidate title: the buyer/hired
fields found so far, the price (`none` while not found) and the final scan
index `j` (the index of the matched price line, or the window limit). -/
structure ScanRes where
  buyer : Option Str
  hired : Option Str
  price : Option Str
  j : Nat
  deriving DecidableEq

/-- The two buyer heuristics of the scan body, applied in source order. -/
def scanLineBuyer (buyer : Option Str) (llow : Str) (tokens : List Str) : Option Str :=
  let buyer1 :=
    match buyer with
    | some _ => buyer
    | none =>
      if decide (2 ≤ tokens.length) && (tokens.getD 0 []).all isAlphaPy &&
         decide ((tokens.getD 0 []).length = 1) then
        let cand := tokens.getD 1 []
        if !isDigitStr cand && !containsWordProekt llow && buyerTok1 cand
        then some cand else buyer
      else buyer
  match buyer1 with
  | some _ => buyer1
  | none =>
    if decide (1 ≤ tokens.length) then
      let t0 := tokens.getD 0 []
      if buyerTok2 t0 && !containsWordProekt llow then some t0 else buyer1
    else buyer1

/-- The `while j < limit` scan body, with `k = limit - j` as structural
fuel so that `j` advances exactly while `j < limit`. -/
def scanWindowAux (lines : List Str) : Nat → Nat → Option Str → Option Str → ScanRes
  | 0, j, buyer, hired => ⟨buyer, hired, none, j⟩
  | k+1, j, buyer, hired =>
    let line := lines.getD j []
    let llow := line.map pyLower
    let buyer2 := scanLineBuyer buyer llow (pySplit line)
    let hired2 :=
      if line.contains ('%') && hasSub (strOf ("нанят")) llow then some line else hired
    if priceRe line then ⟨buyer2, hired2, some (priceStore line), j⟩
    else scanWindowAux lines k (j+1) buyer2 hired2

/-- The forward scan from `start` up to (excluding) `limit`, with
`buyer = hired = None` initially. -/
def scanWindow (lines : List Str) (limit start : Nat) : ScanRes :=
  scanWindowAux lines (limit - start) start none none

/-- One iteration of the main scan loop at index `i` (after the `i <
len(lines)` test): returns the emitted record, if any, and the next value
of `i`.  The window limit is `min(len(lines), i + 20)` as in the source. -/
def parseStep (lines : List Str) (i : Nat) : Option Project × Nat :=
  let title := lines.getD i []
  if isBoiler title (title.map pyLower) then (none, i + 1)
  else
    let sc := scanWindow lines (min lines.length (i + 20)) (i + 1)
    if (categoryAt lines i).isSome && sc.price.isSome then
      (some { title := title, category := categoryAt lines i, buyer := sc.buyer,
              hired := sc.hired, price := sc.price.getD [], url := none }, sc.j + 1)
    else (none, i + 1)

/-- The `while i < len(lines)` loop.  `fuel` is structural fuel; since every
step advances `i` by at least one, `fuel = len(lines)` never runs out
(`parseLoopF_fuel` below), so this is the loop's exact semantics. -/
def parseLoopF (lines : List Str) : Nat → Nat → List Project
  | 0, _ => []
  | fuel+1, i =>
    if i < lines.length then
      match parseStep lines i with
      | (some r, i2) => r :: parseLoopF lines fuel i2
      | (none, i2) => parseLoopF lines fuel i2
    else []

/-- The `projects` list produced by the scan loop started at `i = 0`. -/
def parse_lines (lines : List Str) : List Project := parseLoopF lines lines.length 0

/-- The line preprocessing: split into lines, strip each, drop empties. -/
def mkLines (text : Str) : List Str :=
  ((pySplitlines text).map pyStrip).filter (fun l => !l.isEmpty)

/-- Model of `parse_from_text`.  The only statement in it that can raise is
`int(m.group(2).replace(" ", ""))`; a `ValueError` escaping the function is
modelled as `Except.error ()`. -/
def parse_from_text (text : Str) : Except Unit ParseResult :=
  let available := findAvailable text
  let projects := parse_lines (mkLines text)
  match findTotalRaw text with
  | none => .ok ⟨available, none, none, projects⟩
  | some (tf, g2) =>
    match pyInt (pyRemoveSpaces g2) with
    | some n => .ok ⟨available, some n, some (pyStrip tf), projects⟩
    | none => .error ()

/-- The href filter of `extract_project_links_ordered`: contains
`kwork.ru` and a `project=` query parameter. -/
def isProjectHref (h : Str) : Bool :=
  hasSub (strOf ("kwork.ru")) h &&
  (hasSub (strOf ("new_offer?project=")) h || hasSub (strOf ("project=")) h)

/-- The accumulation loop of `extract_project_links_ordered`: anchors are
the `href` values in document order; `seen` is the dedup set. -/
def extractLinksAux (seen : List Str) : List Str → List Str
  | [] => []
  | a :: rest =>
    let href := pyStrip a
    if isProjectHref href && !(decide (href ∈ seen)) then
      href :: extractLinksAux (href :: seen) rest
    else extractLinksAux seen rest

/-- Model of `extract_project_links_ordered`, taking the document-ordered list of
anchor `href` attributes (the HTML traversal itself is external). -/
def extract_project_links_ordered (anchors : List Str) : List Str :=
  extractLinksAux [] anchors

/-- First-occurrence deduplication relative to an already-seen set; the
reference description of what the accumulation loop computes. -/
def dedupFrom (seen : List Str) : List Str → List Str
  | [] => []
  | h :: t =>
    if decide (h ∈ seen) then dedupFrom seen t else h :: dedupFrom (h :: seen) t

/-- The positional link attachment of `parse_kwork_email`:
`for idx, p in enumerate(projects): if idx < len(links): p["url"] = links[idx]`. -/
def attachLinks : List Str → List Project → List Project
  | _, [] => []
  | [], p :: ps => p :: ps
  | u :: us, p :: ps => { p with url := some u } :: attachLinks us ps

/-- Model of `parse_kwork_email` on the HTML path, taking the rendered text and the
document-ordered anchor hrefs (HTML-to-text rendering is external). -/
def parse_kwork_email_html (text : Str) (anchors : List Str) : Except Unit ParseResult :=
  match parse_from_text text with
  | .error e => .error e
  | .ok data =>
    .ok { data with
          projects := attachLinks (extract_project_links_ordered anchors) data.projects }

/-- The message metadata used by `compose_message` (`meta.get("subject", "")`). -/
structure MetaParts where
  subject : Str
  deriving DecidableEq

/-- One character of `html.escape` with `quote=True` (the default). -/
def htmlEscapeChar (c : Char) : Str :=
  if c = '&' then strOf ("&amp;")
  else if c = '<' then strOf ("&lt;")
  else if c = '>' then strOf ("&gt;")
  else if c = Char.ofNat 34 then strOf ("&quot;")
  else if c = Char.ofNat 39 then strOf ("&#x27;")
  else [c]

/-- Model of `html.escape(s)` (quote=True in both call sites of the source). -/
def htmlEscape (t : Str) : Str := (t.map htmlEscapeChar).flatten

/-- Decimal rendering of a number interpolated into an f-string. -/
def natStr (n : Nat) : Str := (Nat.repr n).data

/-- Python truthiness of an optional string. -/
def optTruthy (o : Option Str) : Bool :=
  match o with
  | some s => !s.isEmpty
  | none => false

/-- A double quote as a character list (for the `<a href="...">` markup). -/
def qq : Str := [Char.ofNat 34]

/-- The lines appended to `out` for one project in `compose_message`. -/
def composeProjectOut (p : Project) : List Str :=
  let safe_title := htmlEscape p.title
  let title_part :=
    match p.url with
    | some u => strOf ("<a href=") ++ qq ++ htmlEscape u ++ qq ++ strOf (">") ++
                safe_title ++ strOf ("</a>")
    | none => safe_title
  let line1 := strOf ("• ") ++ title_part ++ strOf (" — <b>") ++ htmlEscape p.price ++
               strOf ("</b>")
  let line2 :=
    if optTruthy p.buyer then
      line1 ++ strOf (" (👤 ") ++ htmlEscape (p.buyer.getD []) ++ strOf (")")
    else line1
  [line2] ++
  (if optTruthy p.category then [strOf ("  ") ++ htmlEscape (p.category.getD [])] else []) ++
  (if optTruthy p.hired then [strOf ("  ") ++ htmlEscape (p.hired.getD [])] else []) ++
  [[]]

/-- The `header` built by `compose_message`. -/
def composeHeader (meta : MetaParts) (data : ParseResult) : Str :=
  let h0 := strOf ("📬 <b>Kwork: новые проекты</b>")
  let h1 :=
    if data.available.isSome && data.total.isSome && optTruthy data.timeframe then
      h0 ++ strOf ("\n➕ <b>") ++ natStr (data.available.getD 0) ++
      strOf ("</b> подходящих (из ") ++ natStr (data.total.getD 0) ++ strOf (" за ") ++
      htmlEscape (data.timeframe.getD []) ++ strOf (")")
    else if data.available.isSome then
      h0 ++ strOf ("\n➕ <b>") ++ natStr (data.available.getD 0) ++ strOf ("</b> подходящих")
    else h0
  if meta.subject.isEmpty then h1
  else h1 ++ strOf ("\n🧾 <i>") ++ htmlEscape meta.subject ++ strOf ("</i>")

/-- The "could not parse" notice appended when no projects survived. -/
def noticeStr : Str :=
  strOf ("Не смог распарсить проекты (если надо — подточим парсер под HTML письма).")

/-- The join of `out` with newline separators. -/
def joinNL (out : List Str) : Str := List.intercalate [Char.ofNat 10] out

/-- Model of `compose_message` (`maxItems` is the `MAX_ITEMS` value). -/
def compose_message (maxItems : Nat) (meta : MetaParts) (data : ParseResult) : Str :=
  let projects := data.projects.take maxItems
  let out := [composeHeader meta data, []] ++ (projects.map composeProjectOut).flatten ++
             (if projects.isEmpty then [noticeStr] else [])
  pyStrip (joinNL out)

/-- A fetched candidate message `(dt_utc, uid, raw)`; `dt` is the UTC
timestamp in integer seconds. -/
structure Cand where
  dt : Int
  uid : Int
  raw : List Nat
  deriving DecidableEq

/-- The dedup key of a candidate: the Python tuple `(dt, uid)`. -/
def ckey (c : Cand) : Int × Int := (c.dt, c.uid)

/-- Python tuple comparison `(d1,u1) <= (d2,u2)` (lexicographic). -/
def keyLe (a b : Int × Int) : Bool :=
  decide (a.1 < b.1) || (decide (a.1 = b.1) && decide (a.2 ≤ b.2))

/-- Python tuple comparison `(d1,u1) < (d2,u2)` (lexicographic). -/
def keyLt (a b : Int × Int) : Bool :=
  decide (a.1 < b.1) || (decide (a.1 = b.1) && decide (a.2 < b.2))

/-- Model of `_is_fresh(dt)`: `dt >= now - timedelta(minutes=MAX_EMAIL_AGE_MINUTES)`,
with times in integer seconds and the configured age in minutes. -/
def is_fresh (nowT maxAgeMin dt : Int) : Bool := decide (nowT - maxAgeMin * 60 ≤ dt)

/-- The nondecreasing-by-key sortedness of a fetch result
(`items.sort(key=lambda x: (x[0], x[1]))`). -/
def sortedByKey : List Cand → Bool
  | [] => true
  | [_] => true
  | a :: b :: t => keyLe (ckey a) (ckey b) && sortedByKey (b :: t)

/-- The admission filter of the watch loop's drain step: keep a candidate
iff it is fresh and not `(dt, uid) <= last_seen` when a cursor is stored. -/
def drain_filter (nowT maxAgeMin : Int) (cursor : Option (Int × Int))
    (items : List Cand) : List Cand :=
  items.filter (fun c =>
    is_fresh nowT maxAgeMin c.dt &&
    !(match cursor with
      | some k => keyLe (ckey c) k
      | none => false))

/-- The drain step: admitted messages are dispatched in order and the
cursor is re-assigned to each admitted key in turn (the fold mirrors the
per-message `_last_seen = (dt, uid)` updates). Returns the final cursor
and the dispatched messages. -/
def drain_step (nowT maxAgeMin : Int) (cursor : Option (Int × Int))
    (items : List Cand) : Option (Int × Int) × List Cand :=
  let adm := drain_filter nowT maxAgeMin cursor items
  (adm.foldl (fun _ c => some (ckey c)) cursor, adm)

/-- The watcher's in-memory/persisted cursor pair. -/
structure CursorSt where
  mem : Option (Int × Int)
  persisted : Option (Int × Int)
  deriving DecidableEq

/-- The first-run initialization step of `imap_idle_worker`: when no cursor
exists, fetch candidates and, if any, set both cursors to the newest
(last) one's key; nothing is ever dispatched here (second component). -/
def init_cursor (st : CursorSt) (items : List Cand) : CursorSt × List Cand :=
  match st.mem with
  | none =>
    match items.getLast? with
    | some c => (⟨some (ckey c), some (ckey c)⟩, [])
    | none => (st, [])
  | some _ => (st, [])

/-- The `/now` handler's state effect: deliver the newest candidate iff it
exists, is fresh and its key exceeds the cursor; on delivery the cursor is
set to its key.  Returns the new cursor and whether a delivery happened. -/
def now_op (nowT maxAgeMin : Int) (cursor : Option (Int × Int))
    (items : List Cand) : Option (Int × Int) × Bool :=
  match items.getLast? with
  | none => (cursor, false)
  | some c =>
    if !is_fresh nowT maxAgeMin c.dt then (cursor, false)
    else
      match cursor with
      | some k => if keyLe (ckey c) k then (cursor, false) else (some (ckey c), true)
      | none => (some (ckey c), true)

/-- The `/now_force` handler's state effect: always deliver the newest
candidate (if any) and assign the cursor to its key unconditionally. -/
def now_force (cursor : Option (Int × Int)) (items : List Cand) :
    Option (Int × Int) × Bool :=
  match items.getLast? with
  | none => (cursor, false)
  | some c => (some (ckey c), true)

/-- The `/reset_state` handler's state effect: assign the cursor to the
newest candidate's key (if any) without delivering. -/
def reset_state (cursor : Option (Int × Int)) (items : List Cand) :
    Option (Int × Int) × Bool :=
  match items.getLast? with
  | none => (cursor, false)
  | some c => (some (ckey c), false)

/-- Cursor monotonicity: if a key was stored before, a key at least as
large is stored after. -/
def cursorMono (before after : Option (Int × Int)) : Prop :=
  ∀ k, before = some k → ∃ k2, after = some k2 ∧ keyLe k k2 = true

/-- A Python `datetime`: wall-clock reading in integer minutes plus an
optional UTC offset in minutes (`none` = naive). The instant of an aware
value is `wall - offset`. -/
structure PyDateTime where
  wall : Int
  tz : Option Int
  deriving DecidableEq

/-- Model of `dt.astimezone(timezone.utc)`: keep the instant, offset 0; a naive
value is interpreted in the process-local timezone `localOff`. -/
def pyAstimezoneUTC (localOff : Int) (d : PyDateTime) : PyDateTime :=
  match d.tz with
  | some o => ⟨d.wall - o, some 0⟩
  | none => ⟨d.wall - localOff, some 0⟩

/-- The persisted state object `{last_dt_iso, last_uid}`.  The ISO string
is modelled by the datetime value itself, since
`datetime.fromisoformat(dt.isoformat())` round-trips exactly. -/
structure StateRec where
  last_dt_iso : Option PyDateTime
  last_uid : Option Int
  deriving DecidableEq

/-- Model of `_state_set_last_seen(dt, uid)`: convert to UTC and persist. -/
def state_set_last_seen (localOff : Int) (dt : PyDateTime) (uid : Int) : StateRec :=
  ⟨some (pyAstimezoneUTC localOff dt), some uid⟩

/-- Model of `_state_get_last_seen()`: missing fields give `None`; a naive stored
timestamp is reinterpreted as UTC (`replace(tzinfo=utc)`), an aware one is
converted (`astimezone(utc)`). -/
def state_get_last_seen (st : StateRec) : Option (PyDateTime × Int) :=
  match st.last_dt_iso, st.last_uid with
  | some d, some uid =>
    match d.tz with
    | none => some (⟨d.wall, some 0⟩, uid)
    | some o => some (⟨d.wall - o, some 0⟩, uid)
  | _, _ => none

/-! ### Helper lemmas -/

theorem keyLt_iff_not_keyLe (a b : Int × Int) : keyLt a b = true ↔ ¬ keyLe b a = true := by
  simp only [keyLt, keyLe, Bool.or_eq_true, Bool.and_eq_true, decide_eq_true_eq]
  omega

theorem keyLe_refl (a : Int × Int) : keyLe a a = true := by
  simp [keyLe]

theorem keyLe_trans {a b c : Int × Int} (h1 : keyLe a b = true) (h2 : keyLe b c = true) :
    keyLe a c = true := by
  simp only [keyLe, Bool.or_eq_true, Bool.and_eq_true, decide_eq_true_eq] at *
  rcases h1 with h1 | ⟨h1, h1b⟩ <;> rcases h2 with h2 | ⟨h2, h2b⟩
  · left; omega
  · left; omega
  · left; omega
  · right; constructor <;> omega

theorem keyLt_keyLe {a b : Int × Int} (h : keyLt a b = true) : keyLe a b = true := by
  simp only [keyLt, keyLe, Bool.or_eq_true, Bool.and_eq_true, decide_eq_true_eq] at *
  rcases h with h | ⟨h, h2⟩
  · left; exact h
  · right; exact ⟨h, le_of_lt h2⟩

theorem sortedByKey_tail {a : Cand} {t : List Cand} (h : sortedByKey (a :: t) = true) :
    sortedByKey t = true := by
  cases t with
  | nil => rfl
  | cons b t2 =>
    simp only [sortedByKey, Bool.and_eq_true] at h
    exact h.2

theorem sortedByKey_last_max {l : List Cand} (hs : sortedByKey l = true) {c : Cand}
    (hl : l.getLast? = some c) : ∀ x ∈ l, keyLe (ckey x) (ckey c) = true := by
  induction l with
  | nil => simp at hl
  | cons a t ih =>
    intro x hx
    cases t with
    | nil =>
      simp only [List.getLast?_singleton, Option.some.injEq] at hl
      simp only [List.mem_singleton] at hx
      subst hl; subst hx; exact keyLe_refl _
    | cons b t2 =>
      have hab : keyLe (ckey a) (ckey b) = true := by
        simp only [sortedByKey, Bool.and_eq_true] at hs
        exact hs.1
      have hl2 : (b :: t2).getLast? = some c := by
        rw [List.getLast?_cons_cons] at hl
        exact hl
      have htail := sortedByKey_tail hs
      rcases List.mem_cons.mp hx with hxa | hxt
      · subst hxa
        have hbc := ih htail hl2 b (List.mem_cons_self b t2)
        exact keyLe_trans hab hbc
      · exact ih htail hl2 x hxt

theorem foldl_ckey_last (l : List Cand) (init : Option (Int × Int)) :
    l.foldl (fun _ c => some (ckey c)) init = init ∨
      ∃ c ∈ l, l.foldl (fun _ c => some (ckey c)) init = some (ckey c) := by
  induction l generalizing init with
  | nil => exact Or.inl rfl
  | cons a t ih =>
    rcases ih (some (ckey a)) with h | ⟨c, hc, hfold⟩
    · right
      refine ⟨a, List.mem_cons_self a t, ?_⟩
      simpa using h
    · right
      exact ⟨c, List.mem_cons_of_mem a hc, by simpa using hfold⟩

/-! ### C4: freshness boundary -/

/-- C4: The freshness predicate admits a candidate timestamped exactly
`now - MAX_EMAIL_AGE_MINUTES` and rejects every candidate one minute older
than that bound or more (times in seconds, the age in minutes). -/
theorem thm_C4 (nowT maxAgeMin dt : Int) :
    (dt = nowT - maxAgeMin * 60 → is_fresh nowT maxAgeMin dt = true) ∧
    (dt ≤ nowT - maxAgeMin * 60 - 60 → is_fresh nowT maxAgeMin dt = false) := by
  constructor
  · intro h
    simp only [is_fresh, decide_eq_true_eq]
    omega
  · intro h
    simp only [is_fresh, decide_eq_false_iff_not]
    omega

/-- Witness for C4 at `now = 0`, `MAX_EMAIL_AGE_MINUTES = 600`. -/
theorem thm_C4_witness :
    is_fresh 0 600 (-36000) = true ∧ is_fresh 0 600 (-36060) = false :=
  ⟨(thm_C4 0 600 (-36000)).1 (by decide), (thm_C4 0 600 (-36060)).2 (by decide)⟩

/-! ### C10: cursor persistence round-trip -/

/-- C10: Saving a cursor `(dt, uid)` and loading it back yields exactly
`(dt converted to UTC, uid)`; a persisted timestamp without timezone
information is reinterpreted as UTC on load; every loaded cursor carries a
UTC-aware timestamp (offset 0). -/
theorem thm_C10 :
    (∀ (localOff : Int) (dt : PyDateTime) (uid : Int),
      state_get_last_seen (state_set_last_seen localOff dt uid) =
        some (pyAstimezoneUTC localOff dt, uid)) ∧
    (∀ (w : Int) (uid : Int),
      state_get_last_seen ⟨some ⟨w, none⟩, some uid⟩ = some (⟨w, some 0⟩, uid)) ∧
    (∀ (st : StateRec) (d : PyDateTime) (u : Int),
      state_get_last_seen st = some (d, u) → d.tz = some 0) := by
  refine ⟨?_, ?_, ?_⟩
  · intro localOff dt uid
    cases dt with
    | mk w tz =>
      cases tz with
      | none => simp [state_set_last_seen, state_get_last_seen, pyAstimezoneUTC]
      | some o => simp [state_set_last_seen, state_get_last_seen, pyAstimezoneUTC]
  · intro w uid
    rfl
  · intro st d u h
    cases st with
    | mk iso uid =>
      cases iso with
      | none => simp [state_get_last_seen] at h
      | some d0 =>
        cases uid with
        | none => simp [state_get_last_seen] at h
        | some u0 =>
          cases htz : d0.tz with
          | none =>
            simp only [state_get_last_seen, htz, Option.some.injEq, Prod.mk.injEq] at h
            rw [← h.1]
          | some o =>
            simp only [state_get_last_seen, htz, Option.some.injEq, Prod.mk.injEq] at h
            rw [← h.1]

/-- Witness for C10: round-trip of an aware non-UTC cursor, and loading a
naive persisted timestamp. -/
theorem thm_C10_witness :
    state_get_last_seen (state_set_last_seen 0 ⟨100, some 60⟩ 7) = some (⟨40, some 0⟩, 7) ∧
    state_get_last_seen ⟨some ⟨25, none⟩, some 3⟩ = some (⟨25, some 0⟩, 3) ∧
    (⟨40, some 0⟩ : PyDateTime).tz = some 0 :=
  ⟨thm_C10.1 0 ⟨100, some 60⟩ 7,
   thm_C10.2.1 25 3,
   thm_C10.2.2 (state_set_last_seen 0 ⟨100, some 60⟩ 7) ⟨40, some 0⟩ 7 (thm_C10.1 0 ⟨100, some 60⟩ 7)⟩

/-! ### C1: drain admission -/

/-- C1: With a stored cursor `k` and a candidate list sorted ascending
by `(timestamp, uid)`, the drain step admits exactly the fresh candidates
whose key strictly exceeds `k`; in particular, if every candidate's key is
at most `k` (the cursor has advanced to or past the list's maximum key),
replaying the same list admits zero messages. -/
theorem thm_C1 (nowT maxAgeMin : Int) (k : Int × Int) (items : List Cand)
    (hs : sortedByKey items = true) :
    (∀ c, c ∈ drain_filter nowT maxAgeMin (some k) items ↔
       c ∈ items ∧ is_fresh nowT maxAgeMin c.dt = true ∧ keyLt k (ckey c) = true) ∧
    ((∀ c ∈ items, keyLe (ckey c) k = true) →
       drain_filter nowT maxAgeMin (some k) items = []) := by
  have hmem : ∀ c, c ∈ drain_filter nowT maxAgeMin (some k) items ↔
      c ∈ items ∧ is_fresh nowT maxAgeMin c.dt = true ∧ keyLt k (ckey c) = true := by
    intro c
    simp only [drain_filter, List.mem_filter, Bool.and_eq_true, Bool.not_eq_true']
    constructor
    · rintro ⟨hin, hfresh, hle⟩
      refine ⟨hin, hfresh, ?_⟩
      rw [keyLt_iff_not_keyLe]
      simp [hle]
    · rintro ⟨hin, hfresh, hlt⟩
      refine ⟨hin, hfresh, ?_⟩
      rw [keyLt_iff_not_keyLe] at hlt
      simpa using hlt
  refine ⟨hmem, ?_⟩
  intro hall
  rw [drain_filter, List.filter_eq_nil_iff]
  intro c hc
  intro hpred
  have : c ∈ drain_filter nowT maxAgeMin (some k) items := by
    simp only [drain_filter, List.mem_filter]
    exact ⟨hc, hpred⟩
  have h2 := ((hmem c).mp this).2.2
  rw [keyLt_iff_not_keyLe] at h2
  exact h2 (hall c hc)

/-- Witness for C1: a two-element sorted list where only the key above the
cursor is admitted, and replay after the cursor passed the maximum. -/
theorem thm_C1_witness :
    (⟨20, 2, []⟩ ∈ drain_filter 0 0 (some (10, 1)) [⟨5, 1, []⟩, ⟨20, 2, []⟩] ↔
      ⟨20, 2, []⟩ ∈ ([⟨5, 1, []⟩, ⟨20, 2, []⟩] : List Cand) ∧
      is_fresh 0 0 (20 : Int) = true ∧ keyLt (10, 1) (ckey ⟨20, 2, []⟩) = true) ∧
    drain_filter 0 0 (some (30, 5)) [⟨5, 1, []⟩, ⟨20, 2, []⟩] = [] :=
  ⟨((thm_C1 0 0 (10, 1) [⟨5, 1, []⟩, ⟨20, 2, []⟩] (by decide)).1 ⟨20, 2, []⟩),
   (thm_C1 0 0 (30, 5) [⟨5, 1, []⟩, ⟨20, 2, []⟩] (by decide)).2 (by decide)⟩

/-! ### C2: first-run initialization -/

/-- C2: At watch-loop session start with no persisted cursor: if the
(sorted) candidate fetch is nonempty, initialization sets both the
in-memory and persisted cursor to the newest candidate's key (the last
one, which is maximal) and dispatches no delivery; if the fetch is empty,
the cursor remains unset. -/
theorem thm_C2 (st : CursorSt) (items : List Cand) (hmem : st.mem = none)
    (hs : sortedByKey items = true) :
    (items = [] → init_cursor st items = (st, []) ∧ (init_cursor st items).1.mem = none) ∧
    (items ≠ [] → ∃ c, items.getLast? = some c ∧
       (∀ x ∈ items, keyLe (ckey x) (ckey c) = true) ∧
       init_cursor st items = (⟨some (ckey c), some (ckey c)⟩, [])) := by
  constructor
  · intro hnil
    subst hnil
    simp [init_cursor, hmem]
  · intro hne
    obtain ⟨c, hc⟩ : ∃ c, items.getLast? = some c := by
      cases hl : items.getLast? with
      | none => exact absurd (List.getLast?_eq_none_iff.mp hl) hne
      | some c => exact ⟨c, rfl⟩
    refine ⟨c, hc, sortedByKey_last_max hs hc, ?_⟩
    simp [init_cursor, hmem, hc]

/-- Witness for C2: initialization on a concrete two-candidate fetch with
no stored cursor, and on an empty fetch. -/
theorem thm_C2_witness :
    (∃ c, ([⟨5, 1, []⟩, ⟨20, 2, []⟩] : List Cand).getLast? = some c ∧
      (∀ x ∈ ([⟨5, 1, []⟩, ⟨20, 2, []⟩] : List Cand), keyLe (ckey x) (ckey c) = true) ∧
      init_cursor ⟨none, none⟩ [⟨5, 1, []⟩, ⟨20, 2, []⟩] =
        (⟨some (ckey c), some (ckey c)⟩, [])) ∧
    init_cursor ⟨none, none⟩ [] = (⟨none, none⟩, []) :=
  ⟨(thm_C2 ⟨none, none⟩ [⟨5, 1, []⟩, ⟨20, 2, []⟩] rfl (by decide)).2 (by decide),
   ((thm_C2 ⟨none, none⟩ [] rfl (by decide)).1 rfl).1⟩

/-! ### C3: cursor monotonicity (corrected) -/

/-- C3 counterexample: `/now_force` assigns the cursor to the newest
fetched candidate's key unconditionally: if the stored cursor is `(10, 5)`
and the fetch returns only a candidate with key `(3, 1)` (e.g. after the
newer mail was deleted from the mailbox), the cursor moves strictly
backwards, refuting the claim that every operation leaves it
non-decreasing. -/
theorem cex_C3 :
    (now_force (some (10, 5)) [⟨3, 1, []⟩]).1 = some (3, 1) ∧
    keyLt (3, 1) (10, 5) = true ∧ keyLe (10, 5) (3, 1) = false := by
  refine ⟨rfl, by decide, by decide⟩

/-- C3 amended: The watch-loop drain and `/now` never decrease the
cursor; `/now_force` and `/reset_state` assign it to the newest fetched
candidate's key, which is non-decreasing exactly when that key is at least
the stored cursor (in particular whenever the previously seen message is
still among the fetched candidates); and no operation ever unsets a set
cursor, so the cursor is `None` only before the first successful
initialization. -/
theorem thm_C3 (nowT maxAgeMin : Int) (cursor : Option (Int × Int)) (items : List Cand) :
    cursorMono cursor (drain_step nowT maxAgeMin cursor items).1 ∧
    cursorMono cursor (now_op nowT maxAgeMin cursor items).1 ∧
    ((match cursor, items.getLast? with
      | some k, some c => keyLe k (ckey c)
      | _, _ => true) = true →
      cursorMono cursor (now_force cursor items).1 ∧
      cursorMono cursor (reset_state cursor items).1) ∧
    (cursor.isSome →
      (drain_step nowT maxAgeMin cursor items).1.isSome ∧
      (now_op nowT maxAgeMin cursor items).1.isSome ∧
      (now_force cursor items).1.isSome ∧
      (reset_state cursor items).1.isSome) := by
  have hdrain : cursorMono cursor (drain_step nowT maxAgeMin cursor items).1 := by
    intro k hk
    subst hk
    rcases foldl_ckey_last (drain_filter nowT maxAgeMin (some k) items) (some k) with
      h | ⟨c, hc, hfold⟩
    · exact ⟨k, h, keyLe_refl k⟩
    · refine ⟨ckey c, hfold, ?_⟩
      have : c ∈ drain_filter nowT maxAgeMin (some k) items := hc
      simp only [drain_filter, List.mem_filter, Bool.and_eq_true, Bool.not_eq_true'] at this
      have hnle := this.2.2
      have : keyLt k (ckey c) = true := by
        rw [keyLt_iff_not_keyLe]
        simp [hnle]
      exact keyLt_keyLe this
  have hnow : cursorMono cursor (now_op nowT maxAgeMin cursor items).1 := by
    intro k hk
    subst hk
    cases hl : items.getLast? with
    | none => exact ⟨k, by simp [now_op, hl], keyLe_refl k⟩
    | some c =>
      by_cases hfresh : is_fresh nowT maxAgeMin c.dt = true
      · by_cases hle : keyLe (ckey c) k = true
        · exact ⟨k, by simp [now_op, hl, hfresh, hle], keyLe_refl k⟩
        · refine ⟨ckey c, by simp [now_op, hl, hfresh, hle], ?_⟩
          have : keyLt k (ckey c) = true := by
            rw [keyLt_iff_not_keyLe]
            simp [hle]
          exact keyLt_keyLe this
      · refine ⟨k, ?_, keyLe_refl k⟩
        simp only [now_op, hl]
        simp [Bool.not_eq_true] at hfresh
        simp [hfresh]
  refine ⟨hdrain, hnow, ?_, ?_⟩
  · intro hcond
    constructor
    · intro k hk
      subst hk
      cases hl : items.getLast? with
      | none => exact ⟨k, by simp [now_force, hl], keyLe_refl k⟩
      | some c =>
        refine ⟨ckey c, by simp [now_force, hl], ?_⟩
        rw [hl] at hcond
        exact hcond
    · intro k hk
      subst hk
      cases hl : items.getLast? with
      | none => exact ⟨k, by simp [reset_state, hl], keyLe_refl k⟩
      | some c =>
        refine ⟨ckey c, by simp [reset_state, hl], ?_⟩
        rw [hl] at hcond
        exact hcond
  · intro hsome
    obtain ⟨k, hk⟩ := Option.isSome_iff_exists.mp hsome
    subst hk
    refine ⟨?_, ?_, ?_, ?_⟩
    · obtain ⟨k2, hk2, -⟩ := hdrain k rfl
      simp [hk2]
    · obtain ⟨k2, hk2, -⟩ := hnow k rfl
      simp [hk2]
    · cases hl : items.getLast? with
      | none => simp [now_force, hl]
      | some c => simp [now_force, hl]
    · cases hl : items.getLast? with
      | none => simp [reset_state, hl]
      | some c => simp [reset_state, hl]

/-- Witness for C3 (amended), at a concrete state where the newest
candidate's key exceeds the stored cursor. -/
theorem thm_C3_witness :
    cursorMono (some (1, 1)) (drain_step 0 0 (some (1, 1)) [⟨2, 2, []⟩]).1 ∧
    cursorMono (some (1, 1)) (now_op 0 0 (some (1, 1)) [⟨2, 2, []⟩]).1 ∧
    cursorMono (some (1, 1)) (now_force (some (1, 1)) [⟨2, 2, []⟩]).1 ∧
    cursorMono (some (1, 1)) (reset_state (some (1, 1)) [⟨2, 2, []⟩]).1 ∧
    (now_force (some (1, 1)) [⟨2, 2, []⟩]).1.isSome := by
  have h := thm_C3 0 0 (some (1, 1)) [⟨2, 2, []⟩]
  have h3 := h.2.2.1 (by decide)
  exact ⟨h.1, h.2.1, h3.1, h3.2, (h.2.2.2 (by decide)).2.2.1⟩

/-! ### C6: hyperlink extraction and positional attachment -/

theorem extractLinksAux_eq_dedupFrom (anchors : List Str) :
    ∀ seen, extractLinksAux seen anchors =
      dedupFrom seen ((anchors.map pyStrip).filter isProjectHref) := by
  induction anchors with
  | nil => intro seen; rfl
  | cons a rest ih =>
    intro seen
    simp only [extractLinksAux, List.map_cons]
    by_cases helig : isProjectHref (pyStrip a) = true
    · by_cases hseen : pyStrip a ∈ seen
      · simp [helig, hseen, List.filter_cons, dedupFrom, ih]
      · simp [helig, hseen, List.filter_cons, dedupFrom, ih]
    · simp only [Bool.not_eq_true] at helig
      simp [helig, List.filter_cons, ih]

theorem dedupFrom_sublist (l : List Str) : ∀ seen, List.Sublist (dedupFrom seen l) l := by
  induction l with
  | nil => intro seen; simp [dedupFrom]
  | cons h t ih =>
    intro seen
    by_cases hs : h ∈ seen
    · rw [show dedupFrom seen (h :: t) = dedupFrom seen t by simp [dedupFrom, hs]]
      exact (ih seen).cons h
    · rw [show dedupFrom seen (h :: t) = h :: dedupFrom (h :: seen) t by
        simp [dedupFrom, hs]]
      exact (ih (h :: seen)).cons₂ h

theorem dedupFrom_mem (l : List Str) :
    ∀ seen x, x ∈ dedupFrom seen l ↔ x ∈ l ∧ x ∉ seen := by
  induction l with
  | nil => intro seen x; simp [dedupFrom]
  | cons h t ih =>
    intro seen x
    by_cases hs : h ∈ seen
    · rw [show dedupFrom seen (h :: t) = dedupFrom seen t by simp [dedupFrom, hs], ih]
      simp only [List.mem_cons]
      constructor
      · rintro ⟨hx, hn⟩
        exact ⟨Or.inr hx, hn⟩
      · rintro ⟨he | hx, hn⟩
        · subst he; exact absurd hs hn
        · exact ⟨hx, hn⟩
    · rw [show dedupFrom seen (h :: t) = h :: dedupFrom (h :: seen) t by
        simp [dedupFrom, hs]]
      simp only [List.mem_cons, ih]
      constructor
      · rintro (he | ⟨hx, hn⟩)
        · subst he; exact ⟨Or.inl rfl, hs⟩
        · exact ⟨Or.inr hx, fun hmem => hn (Or.inr hmem)⟩
      · rintro ⟨he | hx, hn⟩
        · exact Or.inl he
        · by_cases hxh : x = h
          · exact Or.inl hxh
          · exact Or.inr ⟨hx, by simp [hxh, hn]⟩

theorem dedupFrom_nodup (l : List Str) : ∀ seen, (dedupFrom seen l).Nodup := by
  induction l with
  | nil => intro seen; simp [dedupFrom]
  | cons h t ih =>
    intro seen
    by_cases hs : h ∈ seen
    · rw [show dedupFrom seen (h :: t) = dedupFrom seen t by simp [dedupFrom, hs]]
      exact ih seen
    · rw [show dedupFrom seen (h :: t) = h :: dedupFrom (h :: seen) t by
        simp [dedupFrom, hs]]
      refine List.Nodup.cons ?_ (ih (h :: seen))
      intro hmem
      exact ((dedupFrom_mem t (h :: seen) h).mp hmem).2 (List.mem_cons_self h seen)

/-- C6: Hyperlink extraction returns the eligible (host plus
listing-parameter) anchor hrefs in document order with exact duplicates
removed keeping the first occurrence (it equals first-occurrence dedup of
the in-order filter, is duplicate-free and is an order-preserving sublist
of the filtered sequence); and the extracted sequence is attached
positionally: record `i` receives `links[i]` as its `response_url` when
`i < |links|` and is left unchanged (no URL) otherwise — in particular
with 2 links and 3 records exactly the first two receive a URL. -/
theorem thm_C6 :
    (∀ anchors : List Str,
      extract_project_links_ordered anchors =
        dedupFrom [] ((anchors.map pyStrip).filter isProjectHref) ∧
      (extract_project_links_ordered anchors).Nodup ∧
      List.Sublist (extract_project_links_ordered anchors)
        ((anchors.map pyStrip).filter isProjectHref) ∧
      (∀ u, u ∈ extract_project_links_ordered anchors ↔
        u ∈ (anchors.map pyStrip).filter isProjectHref)) ∧
    (∀ (links : List Str) (ps : List Project) (i : Nat),
      (attachLinks links ps)[i]? =
        (ps[i]?).map (fun p =>
          match links[i]? with
          | some u => { p with url := some u }
          | none => p)) ∧
    (∀ (u1 u2 : Str) (p1 p2 p3 : Project),
      attachLinks [u1, u2] [p1, p2, p3] =
        [{ p1 with url := some u1 }, { p2 with url := some u2 }, p3]) := by
  refine ⟨?_, ?_, ?_⟩
  · intro anchors
    have heq := extractLinksAux_eq_dedupFrom anchors []
    refine ⟨heq, ?_, ?_, ?_⟩
    · rw [extract_project_links_ordered, heq]
      exact dedupFrom_nodup _ []
    · rw [extract_project_links_ordered, heq]
      exact dedupFrom_sublist _ []
    · intro u
      rw [extract_project_links_ordered, heq, dedupFrom_mem]
      simp
  · intro links ps
    induction ps generalizing links with
    | nil =>
      intro i
      cases links <;> simp [attachLinks]
    | cons p pt ih =>
      intro i
      cases links with
      | nil =>
        cases i <;> simp [attachLinks]
      | cons u ut =>
        cases i with
        | zero => simp [attachLinks]
        | succ n => simpa [attachLinks] using ih ut n
  · intro u1 u2 p1 p2 p3
    rfl

/-! ### Scan-window lemmas -/

theorem getD_eq_getElem (lines : List Str) (j : Nat) :
    (lines[j]?).getD [] = lines.getD j [] :=
  (List.getD_eq_getElem?_getD lines j []).symm

theorem scanWindowAux_j_ge (lines : List Str) :
    ∀ (k j : Nat) (b hr : Option Str), j ≤ (scanWindowAux lines k j b hr).j := by
  intro k
  induction k with
  | zero => intro j b hr; simp [scanWindowAux]
  | succ n ih =>
    intro j b hr
    simp only [scanWindowAux, getD_eq_getElem]
    by_cases hp : priceRe (lines.getD j []) = true
    · rw [if_pos hp]
    · rw [if_neg hp]
      exact Nat.le_trans (Nat.le_succ j) (ih (j+1) _ _)

theorem scanWindowAux_price (lines : List Str) :
    ∀ (k j : Nat) (b hr : Option Str) (p : Str),
      (scanWindowAux lines k j b hr).price = some p →
      priceRe (lines.getD (scanWindowAux lines k j b hr).j []) = true ∧
      p = priceStore (lines.getD (scanWindowAux lines k j b hr).j []) ∧
      (scanWindowAux lines k j b hr).j < j + k := by
  intro k
  induction k with
  | zero => intro j b hr p hp; simp [scanWindowAux] at hp
  | succ n ih =>
    intro j b hr p hp
    simp only [scanWindowAux, getD_eq_getElem] at hp ⊢
    by_cases hpr : priceRe (lines.getD j []) = true
    · rw [if_pos hpr] at hp ⊢
      refine ⟨hpr, ?_, ?_⟩
      · exact (Option.some.inj hp).symm
      · show j < j + (n + 1)
        omega
    · rw [if_neg hpr] at hp ⊢
      obtain ⟨h1, h2, h3⟩ := ih (j+1) _ _ p hp
      exact ⟨h1, h2, by omega⟩

theorem scanWindowAux_no_price (lines : List Str) :
    ∀ (k j : Nat) (b hr : Option Str),
      (∀ m, j ≤ m → m < j + k → priceRe (lines.getD m []) = false) →
      (scanWindowAux lines k j b hr).price = none ∧
      (scanWindowAux lines k j b hr).j = j + k := by
  intro k
  induction k with
  | zero => intro j b hr _; simp [scanWindowAux]
  | succ n ih =>
    intro j b hr hall
    have hj : priceRe (lines.getD j []) = true → False := by
      intro hc
      rw [hall j (Nat.le_refl j) (by omega)] at hc
      exact Bool.false_ne_true hc
    simp only [scanWindowAux, getD_eq_getElem]
    rw [if_neg hj]
    obtain ⟨h1, h2⟩ := ih (j+1) _ _ (fun m hm1 hm2 => hall m (by omega) (by omega))
    exact ⟨h1, by omega⟩

theorem scanWindow_j_ge (lines : List Str) (limit start : Nat) :
    start ≤ (scanWindow lines limit start).j :=
  scanWindowAux_j_ge lines (limit - start) start none none

/-! ### C5: mandatory fields for record emission (corrected) -/

/-- C5 counterexample: A text whose first line is a title and whose
second line is a price accepted by the price pattern yields zero records:
the scan also requires a category line (a line containing `>`), so title
and price alone are not sufficient, refuting "emitted exactly when title
and price were found". -/
theorem cex_C5 :
    priceRe (strOf ("500 ₽")) = true ∧
    parse_from_text (strOf ("Сделать сайт\n500 ₽")) = .ok ⟨none, none, none, []⟩ := by
  exact ⟨rfl, rfl⟩

/-- C5 amended: A record is emitted for a candidate title exactly when
both a category (next line containing the breadcrumb separator) and a
price were found in the scan window; the title is the current line itself,
and the buyer handle and hire note are passed through as found (possibly
absent) — their absence never prevents emission. -/
theorem thm_C5 (lines : List Str) (i : Nat)
    (hb : isBoiler (lines.getD i []) ((lines.getD i []).map pyLower) = false) :
    ((categoryAt lines i = none ∨
        (scanWindow lines (min lines.length (i + 20)) (i + 1)).price = none) →
      (parseStep lines i).1 = none ∧ (parseStep lines i).2 = i + 1) ∧
    (∀ c p, categoryAt lines i = some c →
      (scanWindow lines (min lines.length (i + 20)) (i + 1)).price = some p →
      parseStep lines i =
        (some { title := lines.getD i [], category := some c,
                buyer := (scanWindow lines (min lines.length (i + 20)) (i + 1)).buyer,
                hired := (scanWindow lines (min lines.length (i + 20)) (i + 1)).hired,
                price := p, url := none },
         (scanWindow lines (min lines.length (i + 20)) (i + 1)).j + 1)) := by
  constructor
  · intro hmiss
    simp only [parseStep, getD_eq_getElem]
    rw [if_neg (by simp only [getD_eq_getElem, hb]; exact Bool.false_ne_true)]
    rcases hmiss with hc | hp
    · rw [if_neg (by simp [hc])]
      exact ⟨rfl, rfl⟩
    · rw [if_neg (by simp [hp])]
      exact ⟨rfl, rfl⟩
  · intro c p hc hp
    simp only [parseStep, getD_eq_getElem]
    rw [if_neg (by simp only [getD_eq_getElem, hb]; exact Bool.false_ne_true),
      if_pos (by simp [hc, hp])]
    simp [hc, hp]

/-- Witness for C5 (amended): a concrete title/category/price block emits
the record, and the same block without the category line emits nothing. -/
theorem thm_C5_witness :
    parseStep [strOf ("Сайт"), strOf ("Дизайн > Лого"), strOf ("500 ₽")] 0 =
      (some { title := strOf ("Сайт"), category := some (strOf ("Дизайн > Лого")),
              buyer := none, hired := none, price := strOf ("500 ₽"), url := none }, 3) ∧
    (parseStep [strOf ("Сделать сайт"), strOf ("500 ₽")] 0).1 = none := by
  constructor
  · have h := (thm_C5 [strOf ("Сайт"), strOf ("Дизайн > Лого"), strOf ("500 ₽")] 0
      (by decide)).2 (strOf ("Дизайн > Лого")) (strOf ("500 ₽")) (by decide) (by decide)
    rw [h]
    decide
  · exact ((thm_C5 [strOf ("Сделать сайт"), strOf ("500 ₽")] 0 (by decide)).1
      (Or.inl (by decide))).1

/-! ### C7: scan advancement -/

theorem parseStep_none_of_guard_false {lines : List Str} {i : Nat}
    (hb : isBoiler (lines.getD i []) ((lines.getD i []).map pyLower) = false)
    (hng : ¬ ((categoryAt lines i).isSome &&
      (scanWindow lines (min lines.length (i + 20)) (i + 1)).price.isSome) = true) :
    parseStep lines i = (none, i + 1) := by
  simp only [parseStep]
  rw [if_neg (by simp only [hb]; exact Bool.false_ne_true), if_neg hng]

theorem parseStep_emit_of_guard {lines : List Str} {i : Nat}
    (hb : isBoiler (lines.getD i []) ((lines.getD i []).map pyLower) = false)
    (hg : ((categoryAt lines i).isSome &&
      (scanWindow lines (min lines.length (i + 20)) (i + 1)).price.isSome) = true) :
    parseStep lines i =
      (some { title := lines.getD i [],
              category := categoryAt lines i,
              buyer := (scanWindow lines (min lines.length (i + 20)) (i + 1)).buyer,
              hired := (scanWindow lines (min lines.length (i + 20)) (i + 1)).hired,
              price := (scanWindow lines (min lines.length (i + 20)) (i + 1)).price.getD [],
              url := none },
       (scanWindow lines (min lines.length (i + 20)) (i + 1)).j + 1) := by
  simp only [parseStep]
  rw [if_neg (by simp only [hb]; exact Bool.false_ne_true), if_pos hg]

theorem parseStep_advances (lines : List Str) (m : Nat) : m < (parseStep lines m).2 := by
  simp only [parseStep]
  by_cases hbm : isBoiler (lines.getD m []) ((lines.getD m []).map pyLower) = true
  · rw [if_pos hbm]
    omega
  · rw [if_neg hbm]
    by_cases hg : ((categoryAt lines m).isSome &&
        (scanWindow lines (min lines.length (m + 20)) (m + 1)).price.isSome) = true
    · rw [if_pos hg]
      have hge := scanWindow_j_ge lines (min lines.length (m + 20)) (m + 1)
      show m < (scanWindow lines (min lines.length (m + 20)) (m + 1)).j + 1
      omega
    · rw [if_neg hg]
      omega

/-- C7: In the Stage B line scan at a non-boilerplate title `i`: when a
record is emitted the scan position advances to the line immediately after
the matched price line (whose index lies in the lookahead window that
starts right after the title and matches the price pattern); when no line
of the lookahead window matches the price pattern, no record is emitted
for this title and the position advances by exactly one line; every step
strictly advances the position (for any index, boilerplate or not); and
the loop body consumes positions exactly through `parseStep`. -/
theorem thm_C7 (lines : List Str) (fuel i : Nat)
    (hb : isBoiler (lines.getD i []) ((lines.getD i []).map pyLower) = false) :
    (∀ r, (parseStep lines i).1 = some r →
      (parseStep lines i).2 =
        (scanWindow lines (min lines.length (i + 20)) (i + 1)).j + 1 ∧
      priceRe (lines.getD (scanWindow lines (min lines.length (i + 20)) (i + 1)).j []) =
        true ∧
      i + 1 ≤ (scanWindow lines (min lines.length (i + 20)) (i + 1)).j ∧
      (scanWindow lines (min lines.length (i + 20)) (i + 1)).j <
        min lines.length (i + 20)) ∧
    ((∀ k, k < min lines.length (i + 20) → i + 1 ≤ k →
        priceRe (lines.getD k []) = false) →
      (parseStep lines i).1 = none ∧ (parseStep lines i).2 = i + 1) ∧
    (∀ m, m < (parseStep lines m).2) ∧
    (i < lines.length →
      parseLoopF lines (fuel + 1) i =
        match parseStep lines i with
        | (some r, i2) => r :: parseLoopF lines fuel i2
        | (none, i2) => parseLoopF lines fuel i2) := by
  refine ⟨?_, ?_, fun m => parseStep_advances lines m, ?_⟩
  · intro r hr
    by_cases hg : ((categoryAt lines i).isSome &&
        (scanWindow lines (min lines.length (i + 20)) (i + 1)).price.isSome) = true
    · have hp : (scanWindow lines (min lines.length (i + 20)) (i + 1)).price.isSome := by
        have hg2 := hg
        rw [Bool.and_eq_true] at hg2
        exact hg2.2
      obtain ⟨p, hps⟩ := Option.isSome_iff_exists.mp hp
      have hw := scanWindowAux_price lines (min lines.length (i + 20) - (i + 1)) (i + 1)
        none none p hps
      have hlim : i + 1 < min lines.length (i + 20) := by
        rcases Nat.lt_or_ge (i + 1) (min lines.length (i + 20)) with h | h
        · exact h
        · exfalso
          have h0 : min lines.length (i + 20) - (i + 1) = 0 := by omega
          rw [scanWindow, h0] at hps
          simp [scanWindowAux] at hps
      refine ⟨by rw [parseStep_emit_of_guard hb hg], hw.1, ?_, ?_⟩
      · exact scanWindow_j_ge lines (min lines.length (i + 20)) (i + 1)
      · have h3 := hw.2.2
        rw [scanWindow]
        omega
    · exfalso
      rw [parseStep_none_of_guard_false hb hg] at hr
      exact Option.noConfusion hr
  · intro hall
    have hnone : (scanWindow lines (min lines.length (i + 20)) (i + 1)).price = none := by
      rw [scanWindow]
      refine (scanWindowAux_no_price lines (min lines.length (i + 20) - (i + 1)) (i + 1)
        none none ?_).1
      intro m hm1 hm2
      exact hall m (by omega) hm1
    rw [parseStep_none_of_guard_false hb (by simp [hnone])]
    exact ⟨rfl, rfl⟩
  · intro hi
    simp only [parseLoopF]
    rw [if_pos hi]

/-- Witness for C7: a concrete no-price block advances by exactly one line
with no record, and a concrete priced block advances past its price line. -/
theorem thm_C7_witness :
    ((parseStep [strOf ("Сделать сайт"), strOf ("ничего интересного")] 0).1 = none ∧
     (parseStep [strOf ("Сделать сайт"), strOf ("ничего интересного")] 0).2 = 1) ∧
    (parseStep [strOf ("Сайт"), strOf ("Дизайн > Лого"), strOf ("500 ₽")] 0).2 = 3 ∧
    (0 : Nat) < (parseStep [strOf ("Сайт"), strOf ("Дизайн > Лого"), strOf ("500 ₽")] 0).2 := by
  refine ⟨?_, ?_, ?_⟩
  · exact (thm_C7 [strOf ("Сделать сайт"), strOf ("ничего интересного")] 0 0
      (by decide)).2.1 (by decide)
  · have h := ((thm_C7 [strOf ("Сайт"), strOf ("Дизайн > Лого"), strOf ("500 ₽")] 0 0
      (by decide)).1
      ({ title := strOf ("Сайт"), category := some (strOf ("Дизайн > Лого")),
         buyer := none, hired := none, price := strOf ("500 ₽"), url := none })
      (by decide)).1
    rw [h]
    decide
  · exact (thm_C7 [strOf ("Сайт"), strOf ("Дизайн > Лого"), strOf ("500 ₽")] 0 0
      (by decide)).2.2.1 0

/-! ### C8: currency normalization (corrected) -/

/-- C8 counterexample: The price pattern is compiled with IGNORECASE,
so a line whose currency marker is the lowercase letter `р` is accepted,
but the stored price only rewrites the uppercase `Р` to `₽`: the stored
string for `"500 р"` still ends in the letter abbreviation, refuting "the
stored price ends with ₽ and never with the letter abbreviation"; a full
parse of such a message stores that price verbatim in the emitted record. -/
theorem cex_C8 :
    priceRe (strOf ("500 р")) = true ∧
    priceStore (strOf ("500 р")) = strOf ("500 р") ∧
    (priceStore (strOf ("500 р"))).getLast? ≠ some ('₽') ∧
    parse_from_text (strOf ("Сайт\nДизайн > Лого\n500 р")) =
      .ok ⟨none, none, none,
        [{ title := strOf ("Сайт"), category := some (strOf ("Дизайн > Лого")),
           buyer := none, hired := none, price := strOf ("500 р"), url := none }]⟩ := by
  exact ⟨rfl, rfl, by decide, rfl⟩

theorem priceTail_last : ∀ t : Str, priceTail t = true →
    ∃ m, t.getLast? = some m ∧ (m = 'Р' ∨ m = 'р' ∨ m = '₽') := by
  intro t
  induction t with
  | nil => intro h; simp [priceTail] at h
  | cons c rest ih =>
    intro h
    cases rest with
    | nil =>
      refine ⟨c, rfl, ?_⟩
      simp only [priceTail, Bool.or_eq_true, decide_eq_true_eq] at h
      tauto
    | cons c2 rest2 =>
      simp only [priceTail, Bool.and_eq_true] at h
      obtain ⟨m, hm, hmk⟩ := ih h.2
      exact ⟨m, by rw [List.getLast?_cons_cons]; exact hm, hmk⟩

theorem isDigit_not_space {c : Char} (h : isDigit c = true) : isSpacePy c = false := by
  rw [Bool.eq_false_iff]
  intro hsp
  simp only [isSpacePy, Bool.or_eq_true, decide_eq_true_eq] at hsp
  simp only [isDigit, Bool.and_eq_true, decide_eq_true_eq] at h
  rcases hsp with ((((((h1 | h1) | h1) | h1) | h1) | h1) | h1) | h1 <;>
    (subst h1; revert h; decide)

theorem pyLstrip_cons_of_not_space {c : Char} {t : Str} (h : isSpacePy c = false) :
    pyLstrip (c :: t) = c :: t := by
  simp [pyLstrip, List.dropWhile_cons, h]

theorem pyRstrip_of_last {l : Str} {m : Char} (hl : l.getLast? = some m)
    (h : isSpacePy m = false) : pyRstrip l = l := by
  have hrev : l.reverse.head? = some m := by
    rw [List.head?_reverse]
    exact hl
  cases hr : l.reverse with
  | nil => rw [hr] at hrev; simp at hrev
  | cons a t =>
    rw [hr] at hrev
    simp only [List.head?_cons, Option.some.injEq] at hrev
    subst hrev
    rw [pyRstrip, hr, List.dropWhile_cons]
    simp only [h, Bool.false_eq_true, if_false]
    rw [← hr, List.reverse_reverse]

/-- What the stored price looks like for any line accepted by the price
pattern: the line ends in one of the three markers, and the stored string
ends in `₽` for the `₽`/`Р` markers but in `р` for the lowercase marker. -/
theorem priceStore_last {line : Str} (h : priceRe line = true) :
    ∃ m, line.getLast? = some m ∧ (m = 'Р' ∨ m = 'р' ∨ m = '₽') ∧
      (priceStore line).getLast? = some (if m = 'Р' then '₽' else m) := by
  cases hline : line with
  | nil => rw [hline] at h; simp [priceRe] at h
  | cons c rest =>
    rw [hline] at h
    simp only [priceRe, Bool.and_eq_true] at h
    obtain ⟨hc, ht⟩ := h
    obtain ⟨m, hm, hmk⟩ := priceTail_last rest ht
    have hrest_ne : rest ≠ [] := by
      intro hne
      rw [hne] at hm
      simp at hm
    have hlast : (c :: rest).getLast? = some m := by
      cases rest with
      | nil => exact absurd rfl hrest_ne
      | cons r rs =>
        rw [List.getLast?_cons_cons]
        exact hm
    refine ⟨m, hlast, hmk, ?_⟩
    have hmap : ((c :: rest).map (fun x => if x = 'Р' then '₽' else x)).getLast? =
        some (if m = 'Р' then '₽' else m) := by
      rw [List.getLast?_map, hlast]
      rfl
    have hc_ne : c ≠ 'Р' := by
      intro hce
      subst hce
      revert hc
      decide
    have hmarker_ns : isSpacePy (if m = 'Р' then '₽' else m) = false := by
      rcases hmk with h1 | h1 | h1 <;> subst h1 <;> decide
    rw [List.map_cons, if_neg hc_ne] at hmap
    rw [priceStore, List.map_cons, if_neg hc_ne]
    rw [pyStrip, pyLstrip_cons_of_not_space (isDigit_not_space hc)]
    rw [pyRstrip_of_last hmap hmarker_ns]
    exact hmap

theorem parseStep_price {lines : List Str} {i i2 : Nat} {r : Project}
    (h : parseStep lines i = (some r, i2)) :
    ∃ line, priceRe line = true ∧ r.price = priceStore line := by
  by_cases hb : isBoiler (lines.getD i []) ((lines.getD i []).map pyLower) = true
  · exfalso
    have : parseStep lines i = (none, i + 1) := by
      simp only [parseStep]
      rw [if_pos hb]
    rw [this] at h
    simp at h
  · have hb2 : isBoiler (lines.getD i []) ((lines.getD i []).map pyLower) = false := by
      simpa using hb
    by_cases hg : ((categoryAt lines i).isSome &&
        (scanWindow lines (min lines.length (i + 20)) (i + 1)).price.isSome) = true
    · have hstep := parseStep_emit_of_guard hb2 hg
      rw [hstep] at h
      have hrec := Option.some.inj (congrArg Prod.fst h)
      have hp : (scanWindow lines (min lines.length (i + 20)) (i + 1)).price.isSome := by
        have hg2 := hg
        rw [Bool.and_eq_true] at hg2
        exact hg2.2
      obtain ⟨p, hps⟩ := Option.isSome_iff_exists.mp hp
      have hw := scanWindowAux_price lines (min lines.length (i + 20) - (i + 1)) (i + 1)
        none none p hps
      refine ⟨lines.getD (scanWindow lines (min lines.length (i + 20)) (i + 1)).j [],
        hw.1, ?_⟩
      rw [← hrec]
      show (scanWindow lines (min lines.length (i + 20)) (i + 1)).price.getD [] = _
      rw [hps]
      exact hw.2.1
    · rw [parseStep_none_of_guard_false hb2 hg] at h
      simp at h

theorem parseLoopF_price (lines : List Str) :
    ∀ (fuel i : Nat) (proj : Project), proj ∈ parseLoopF lines fuel i →
      ∃ line, priceRe line = true ∧ proj.price = priceStore line := by
  intro fuel
  induction fuel with
  | zero => intro i proj hmem; simp [parseLoopF] at hmem
  | succ n ih =>
    intro i proj hmem
    simp only [parseLoopF] at hmem
    by_cases hi : i < lines.length
    · rw [if_pos hi] at hmem
      cases hstep : parseStep lines i with
      | mk o i2 =>
        rw [hstep] at hmem
        cases o with
        | some r =>
          simp only at hmem
          rcases List.mem_cons.mp hmem with heq | htail
          · subst heq
            exact parseStep_price hstep
          · exact ih i2 proj htail
        | none =>
          simp only at hmem
          exact ih i2 proj hmem
    · rw [if_neg hi] at hmem
      simp at hmem

/-- C8 amended: Every price stored in an emitted record comes from a
line accepted by the price pattern; the stored price always ends in `₽` or
in the lowercase letter marker `р`, and it ends in `₽` whenever the line's
marker was `₽` or the uppercase `Р` (the lowercase `р`, also accepted by
the IGNORECASE pattern, is stored unrewritten). -/
theorem thm_C8 (lines : List Str) (fuel i : Nat) (proj : Project)
    (hmem : proj ∈ parseLoopF lines fuel i) :
    ∃ line, priceRe line = true ∧ proj.price = priceStore line ∧
      (proj.price.getLast? = some ('₽') ∨ proj.price.getLast? = some ('р')) ∧
      (line.getLast? ≠ some ('р') → proj.price.getLast? = some ('₽')) := by
  obtain ⟨line, hpr, hpe⟩ := parseLoopF_price lines fuel i proj hmem
  obtain ⟨m, hm, hmk, hstore⟩ := priceStore_last hpr
  refine ⟨line, hpr, hpe, ?_, ?_⟩
  · rw [hpe, hstore]
    rcases hmk with h1 | h1 | h1 <;> subst h1 <;> simp
  · intro hne
    rw [hpe, hstore]
    rcases hmk with h1 | h1 | h1 <;> subst h1
    · simp
    · exfalso
      exact hne hm
    · simp

/-- Witness for C8 (amended) at a concrete parsed block whose price line
uses the uppercase marker. -/
theorem thm_C8_witness :
    ∃ line, priceRe line = true ∧
      ({ title := strOf ("Сайт"), category := some (strOf ("Дизайн > Лого")),
         buyer := none, hired := none, price := strOf ("500 ₽"),
         url := none } : Project).price = priceStore line ∧
      ((strOf ("500 ₽") : Str).getLast? = some ('₽') ∨
       (strOf ("500 ₽") : Str).getLast? = some ('р')) ∧
      (line.getLast? ≠ some ('р') → (strOf ("500 ₽") : Str).getLast? = some ('₽')) :=
  thm_C8 [strOf ("Сайт"), strOf ("Дизайн > Лого"), strOf ("500 Р")] 3 0
    ({ title := strOf ("Сайт"), category := some (strOf ("Дизайн > Лого")),
       buyer := none, hired := none, price := strOf ("500 ₽"), url := none })
    (by decide)

/-! ### C9: parser failure policy (corrected) -/

/-- C9 counterexample: `parse_from_text` can raise: on a text where
the total-count pattern matches with a whitespace-only captured count
(three spaces between the "posted" literal and the "new projects" words),
`int(m.group(2).replace(" ", ""))` is `int("")`, which raises
`ValueError` out of the parser — so the parser is not total as claimed. -/
theorem cex_C9 :
    parse_from_text
      (strOf ("За последние 6 дней на бирже размещено   новых проектов")) =
      .error () := by
  rfl

theorem searchSuffixes_none {α : Type} (f : Str → Option α) :
    ∀ l : Str, (∀ s, s <:+ l → f s = none) → searchSuffixes f l = none := by
  intro l
  induction l with
  | nil =>
    intro h
    simp only [searchSuffixes]
    exact h [] (List.suffix_refl [])
  | cons c rest ih =>
    intro h
    simp only [searchSuffixes]
    rw [h (c :: rest) (List.suffix_refl _)]
    exact ih (fun s hs => h s (hs.trans (List.suffix_cons c rest)))

theorem suffix_pyLstrip {c : Char} {t : Str} (hc : isSpacePy c = false) :
    ∀ {s : Str}, (c :: t) <:+ s → (c :: t) <:+ pyLstrip s := by
  intro s
  induction s with
  | nil =>
    intro h
    exact h
  | cons a s2 ih =>
    intro h
    rcases List.suffix_cons_iff.mp h with heq | hsuf
    · have ha : a = c := by
        have h0 := heq
        injection h0 with h1 h2
        exact h1.symm
      rw [show pyLstrip (a :: s2) = a :: s2 from
        pyLstrip_cons_of_not_space (ha ▸ hc)]
      exact heq ▸ List.suffix_refl _
    · have h2 := ih hsuf
      rw [pyLstrip, List.dropWhile_cons]
      by_cases hws : isSpacePy a = true
      · rw [if_pos hws]
        exact h2
      · rw [if_neg hws]
        exact hsuf.trans (List.suffix_cons a s2)

/-- C9 amended: The parser is total except for the integer conversion
of the total-count capture: every `ValueError` escape comes from a matched
total pattern whose captured group, after removing ASCII spaces, is not a
nonempty digit string.  Each unmatched summary pattern leaves the
corresponding optional field unset.  And every parse result with zero
listing records composes to a message carrying the explicit
could-not-parse notice. -/
theorem thm_C9 :
    (∀ (text : Str) (e : Unit), parse_from_text text = .error e →
      ∃ g, findTotalRaw text = some g ∧ pyInt (pyRemoveSpaces g.2) = none) ∧
    (∀ (text : Str) (r : ParseResult), parse_from_text text = .ok r →
      ((∀ s, s <:+ text → matchAvailAt s = none) → r.available = none) ∧
      ((∀ s, s <:+ text → matchTotalAt s = none) → r.total = none ∧ r.timeframe = none)) ∧
    (∀ (maxItems : Nat) (meta : MetaParts) (data : ParseResult),
      data.projects = [] → noticeStr <:+ compose_message maxItems meta data) := by
  refine ⟨?_, ?_, ?_⟩
  · intro text e herr
    simp only [parse_from_text] at herr
    cases hft : findTotalRaw text with
    | none =>
      rw [hft] at herr
      exact Except.noConfusion herr
    | some g =>
      cases g with
      | mk tf g2 =>
        rw [hft] at herr
        cases hpi : pyInt (pyRemoveSpaces g2) with
        | none => exact ⟨(tf, g2), rfl, hpi⟩
        | some n =>
          simp only [hpi] at herr
          exact Except.noConfusion herr
  · intro text r hok
    simp only [parse_from_text] at hok
    constructor
    · intro hnoav
      have hfa : findAvailable text = none := searchSuffixes_none matchAvailAt text hnoav
      cases hft : findTotalRaw text with
      | none =>
        rw [hft] at hok
        have := Except.ok.inj hok
        rw [← this]
        exact hfa
      | some g =>
        cases g with
        | mk tf g2 =>
          rw [hft] at hok
          cases hpi : pyInt (pyRemoveSpaces g2) with
          | none =>
            simp only [hpi] at hok
            exact Except.noConfusion hok
          | some n =>
            simp only [hpi] at hok
            have hinj := Except.ok.inj hok
            rw [← hinj]
            exact hfa
    · intro hnot
      have hft : findTotalRaw text = none := searchSuffixes_none matchTotalAt text hnot
      rw [hft] at hok
      have := Except.ok.inj hok
      rw [← this]
      exact ⟨rfl, rfl⟩
  · intro maxItems meta data hproj
    have hout : compose_message maxItems meta data =
        pyStrip (joinNL [composeHeader meta data, [], noticeStr]) := by
      simp [compose_message, hproj]
    rw [hout]
    have hjoin : joinNL [composeHeader meta data, [], noticeStr] =
        (composeHeader meta data ++ [Char.ofNat 10] ++ [Char.ofNat 10]) ++ noticeStr := by
      simp [joinNL, List.intercalate, List.intersperse]
    rw [hjoin]
    have hsuf : noticeStr <:+
        (composeHeader meta data ++ [Char.ofNat 10] ++ [Char.ofNat 10]) ++ noticeStr :=
      List.suffix_append _ _
    have hlsuf : noticeStr <:+
        pyLstrip ((composeHeader meta data ++ [Char.ofNat 10] ++ [Char.ofNat 10]) ++
          noticeStr) := by
      have hshape : noticeStr = 'Н' :: (strOf
          ("е смог распарсить проекты (если надо — подточим парсер под HTML письма).")) :=
        rfl
      rw [hshape] at hsuf ⊢
      exact suffix_pyLstrip (by decide) hsuf
    rw [pyStrip]
    obtain ⟨pre, hpre⟩ := hlsuf
    have hlast : (pyLstrip ((composeHeader meta data ++ [Char.ofNat 10] ++ [Char.ofNat 10]) ++
        noticeStr)).getLast? = noticeStr.getLast? := by
      rw [← hpre]
      exact List.getLast?_append_of_ne_nil pre (by decide)
    rw [pyRstrip_of_last (hlast.trans (by rfl)) (by decide)]
    exact ⟨pre, hpre⟩

/-- Witness for C9 (amended): the failing input's matched capture, the
unset fields on the empty text, and the notice on an empty parse result. -/
theorem thm_C9_witness :
    (∃ g, findTotalRaw
        (strOf ("За последние 6 дней на бирже размещено   новых проектов")) = some g ∧
      pyInt (pyRemoveSpaces g.2) = none) ∧
    (⟨none, none, none, []⟩ : ParseResult).available = none ∧
    noticeStr <:+ compose_message 10 ⟨[]⟩ ⟨none, none, none, []⟩ := by
  refine ⟨?_, ?_, ?_⟩
  · exact thm_C9.1 (strOf ("За последние 6 дней на бирже размещено   новых проектов")) ()
      (by rfl)
  · exact (thm_C9.2.1 [] ⟨none, none, none, []⟩ rfl).1
      (fun s hs => by rw [List.suffix_nil.mp hs]; rfl)
  · exact thm_C9.2.2 10 ⟨[]⟩ ⟨none, none, none, []⟩ rfl
